import Mathlib

/-!
Shallow embedding of the AScore phosphorylation-site localization core
(`src/openms/source/ANALYSIS/ID/AScore.cpp`) together with proofs about it.

Conventions of the embedding:
* C++ `double` arithmetic is modelled exactly: rational numbers (`ℚ`) for
  every quantity produced by field operations, and `ℝ` for the logarithmic
  depth scores `abs(-10 * log10 p)`.
* `std::vector` becomes `List`, `Size` becomes `ℕ`.
* Theoretical spectra are lists of m/z positions (`List ℚ`); observed peaks
  carry an intensity as well (`Peak`).
* The OpenMS pieces the analysed file calls but that are not among the
  analysed sources (`MSSpectrum::findNearest`, `AScore::getSpectrumDifference_`,
  the theoretical spectrum generator, `AASequence`) are modelled from the
  specification text and say so in their doc comments.
-/

namespace AScoreModel

/-- An observed peak: (position, intensity), both exact rationals. -/
structure Peak where
  mz : ℚ
  intensity : ℚ
deriving DecidableEq

/-- The C++ `abs` on exact rationals, written with an explicit sign test so
that concrete runs evaluate by rewriting; `ratAbs_eq_abs` below identifies
it with `|·|`. -/
def ratAbs (q : ℚ) : ℚ := if q < 0 then -q else q

/-- Scan of `findNearestAux`: carries the index of the best candidate so far
and its absolute distance, replacing it only on strictly smaller distance
(so the first index wins ties). -/
def findNearestAux (mz : ℚ) (l : List ℚ) (i : ℕ) (best : Option (ℕ × ℚ)) : Option ℕ :=
  match l, best with
  | [], none => none
  | [], some (bi, _) => some bi
  | t :: rest, none => findNearestAux mz rest (i + 1) (some (i, ratAbs (t - mz)))
  | t :: rest, some (bi, bd) =>
    if ratAbs (t - mz) < bd then findNearestAux mz rest (i + 1) (some (i, ratAbs (t - mz)))
    else findNearestAux mz rest (i + 1) (some (bi, bd))

/-- Modelled from the spec: `MSSpectrum::findNearest` is not among the
analysed source files; the spec says "find the nearest theoretical ion by
position".  Returns an index of `th` minimizing the absolute position
difference to `mz` (the first such index), or `none` for an empty spectrum. -/
def findNearest (th : List ℚ) (mz : ℚ) : Option ℕ :=
  findNearestAux mz th 0 none

/-- One iteration body of `AScore::numberOfMatchedIons_` (AScore.cpp:306-322):
does the observed position `mz` match its nearest theoretical ion of `th`,
with the error interpreted in ppm of the theoretical position when `ppm`? -/
def matchesIon (th : List ℚ) (tol : ℚ) (ppm : Bool) (mz : ℚ) : Bool :=
  match findNearest th mz with
  | none => false
  | some idx =>
    let theoMz := th.getD idx 0
    let error := ratAbs (theoMz - mz)
    let error' := if ppm then error / theoMz * 1000000 else error
    decide (error' < tol)

/-- The counting loop of `AScore::numberOfMatchedIons_` (AScore.cpp:304):
runs over `window` while the index `i` satisfies `i ≤ depth`. -/
def numberOfMatchedIonsAux (th : List ℚ) (tol : ℚ) (ppm : Bool) (depth : ℕ) :
    List ℚ → ℕ → ℕ
  | [], _ => 0
  | w :: ws, i =>
    if i ≤ depth then
      (if matchesIon th tol ppm w then 1 else 0)
        + numberOfMatchedIonsAux th tol ppm depth ws (i + 1)
    else 0

/-- `AScore::numberOfMatchedIons_` (AScore.cpp:300-325).  `window` is one
100 m/z window of the observed spectrum, ordered by descending intensity. -/
def numberOfMatchedIons (th window : List ℚ) (depth : ℕ) (tol : ℚ) (ppm : Bool) : ℕ :=
  numberOfMatchedIonsAux th tol ppm depth window 0

/-- The summation loop of `AScore::computeCumulativeScore_` (AScore.cpp:171-177):
adds `C(N,k) * p^k * (1-p)^(N-k)` for `k = k0, k0+1, ...` while `k ≤ N`.
`fuel` bounds the iteration count; the caller passes `N + 1 - k0`. -/
def binomSumFrom (N : ℕ) (p : ℚ) : ℕ → ℕ → ℚ
  | 0, _ => 0
  | fuel + 1, k =>
    if k ≤ N then
      (N.choose k : ℚ) * p ^ k * (1 - p) ^ (N - k) + binomSumFrom N p fuel (k + 1)
    else 0

/-- `AScore::computeCumulativeScore_` (AScore.cpp:161-180): returns 1.0 when
`n = 0`, otherwise the right binomial tail starting at `n`. -/
def computeCumulativeScore (N n : ℕ) (p : ℚ) : ℚ :=
  if n = 0 then 1 else binomSumFrom N p (N + 1 - n) n

/-- `AScore::peptideScore_` (AScore.cpp:327-341): fixed-weight combination of
the ten depth scores, divided by 10. -/
def peptideScore (scores : List ℚ) : ℚ :=
  (scores.getD 0 0 * 0.5
      + scores.getD 1 0 * 0.75
      + scores.getD 2 0
      + scores.getD 3 0
      + scores.getD 4 0
      + scores.getD 5 0
      + scores.getD 6 0 * 0.75
      + scores.getD 7 0 * 0.5
      + scores.getD 8 0 * 0.25
      + scores.getD 9 0 * 0.25)
    / 10

/-- `AScore::computePermutations_` (AScore.cpp:357-406): all `k`-subsets of
`sites` by a head/tail split, head-selected subsets first.  (The C++ reads
`sites[0]` out of bounds when called with an empty list and `k ≥ 2`; such a
call never happens for `k ≤ |sites|`, and the model returns `[]` there.) -/
def computePermutations : List ℕ → ℕ → List (List ℕ)
  | _, 0 => []
  | sites, 1 => sites.map fun s => [s]
  | sites, k + 2 =>
    if sites.length = k + 2 then [sites]
    else
      match sites with
      | [] => []
      | s :: rest =>
        ((computePermutations rest (k + 1)).map fun t => s :: t)
          ++ computePermutations rest (k + 2)

/-- The seven characters searched for by `AScore::numberOfPhosphoEvents_`. -/
def phosphoChars : List Char := ['P', 'h', 'o', 's', 'p', 'h', 'o']

/-- `AScore::numberOfPhosphoEvents_` (AScore.cpp:409-419): counts
non-overlapping occurrences of "Phospho" (the C++ resumes searching 7
characters after each hit). -/
def numberOfPhosphoEvents : List Char → ℕ
  | [] => 0
  | c :: rest =>
    if phosphoChars.isPrefixOf (c :: rest) then 1 + numberOfPhosphoEvents (rest.drop 6)
    else numberOfPhosphoEvents rest
termination_by l => l.length
decreasing_by
  all_goals simp_all [List.length_drop]
  all_goals omega

/-- The nine characters removed by `AScore::removePhosphositesFromSequence_`. -/
def phosphoTagChars : List Char := ['(', 'P', 'h', 'o', 's', 'p', 'h', 'o', ')']

/-- `AScore::removePhosphositesFromSequence_` (AScore.cpp:422-429): removes
every occurrence of "(Phospho)" from the sequence string. -/
def removePhosphositesFromSequence : List Char → List Char
  | [] => []
  | c :: rest =>
    if phosphoTagChars.isPrefixOf (c :: rest) then removePhosphositesFromSequence (rest.drop 8)
    else c :: removePhosphositesFromSequence rest
termination_by l => l.length
decreasing_by
  all_goals simp_all [List.length_drop]
  all_goals omega

/-- `AScore::getSites_` (AScore.cpp:343-355): positions of S, T and Y in the
unmodified sequence, in increasing order. -/
def getSites (unmodified : List Char) : List ℕ :=
  (List.range unmodified.length).filter fun i =>
    unmodified.getD i ' ' == 'Y' || unmodified.getD i ' ' == 'T'
      || unmodified.getD i ' ' == 'S'

/-- A meta value attached to a peptide hit (string- or number-valued). -/
inductive MetaValue where
  | str : List Char → MetaValue
  | num : ℚ → MetaValue

/-- The slice of the OpenMS `PeptideHit` state that `AScore::compute`
touches: score, sequence string, attached meta values. -/
structure PeptideHit where
  score : ℚ
  sequence : List Char
  metaValues : List (List Char × MetaValue)

/-- `AScore::compute` (AScore.cpp:60-158) up to its empty-spectrum early
return.  `unmod` stands for the external `AASequence::toUnmodifiedString`,
and `downstream` for everything after the emptiness test (windowing,
theoretical spectra, scoring, ranking, site resolution), receiving the
clamped event count and the candidate sites. -/
def compute (unmod : List Char → List Char)
    (downstream : PeptideHit → ℕ → List ℕ → PeptideHit)
    (hit : PeptideHit) (realSpectrum : List Peak) : PeptideHit :=
  let phospho : PeptideHit := { hit with score := 0 }
  let events := numberOfPhosphoEvents hit.sequence
  let seqWithoutPhospho := removePhosphositesFromSequence hit.sequence
  let sites := getSites (unmod seqWithoutPhospho)
  let clampedEvents := if sites.length < events then sites.length else events
  if realSpectrum.isEmpty then phospho
  else downstream phospho clampedEvents sites

/-- Modelled from the spec: `AScore::getSpectrumDifference_` is declared in
the header, which is not among the analysed sources; the spec says "ions
present in one spectrum's ion set but absent (by exact position) from the
other". -/
def getSpectrumDifference (a b : List ℚ) : List ℚ :=
  a.filter fun x => !(b.contains x)

/-- The position-ascending sort applied to the differential ion spectra
(`sortByPosition`, AScore.cpp:296-297). -/
def sortByPosition (l : List ℚ) : List ℚ :=
  l.mergeSort fun a b => decide (a ≤ b)

/-- `AScore::computeSiteDeterminingIons_` (AScore.cpp:272-298): the two
directional differences between the theoretical spectra of the two competing
assignments, each sorted by position. -/
def computeSiteDeterminingIons (th1 th2 : List ℚ) : List ℚ × List ℚ :=
  (sortByPosition (getSpectrumDifference th1 th2),
    sortByPosition (getSpectrumDifference th2 th1))

/-- Matched-ion count at peak depth `i`, summed over all 100 m/z windows
(AScore.cpp:524-528 and 133-145). -/
def totalMatchedIons (th : List ℚ) (windows : List (List ℚ)) (i : ℕ)
    (tol : ℚ) (ppm : Bool) : ℕ :=
  (windows.map fun w => numberOfMatchedIons th w i tol ppm).sum

/-- The ten binomial tails of one permutation's theoretical spectrum: `N` is
the spectrum size, `n` the matched count at depth `i`, `p = i/100`
(AScore.cpp:519-530). -/
def cumulativeScores (th : List ℚ) (windows : List (List ℚ)) (tol : ℚ)
    (ppm : Bool) : List ℚ :=
  (List.range 10).map fun j =>
    computeCumulativeScore th.length (totalMatchedIons th windows (j + 1) tol ppm)
      (((j : ℚ) + 1) / 100)

/-- The depth score `abs(-10 * log10 p)` (AScore.cpp:150-151 and 533). -/
noncomputable def depthScore (p : ℚ) : ℝ :=
  |(-10 : ℝ) * Real.logb 10 (p : ℝ)|

/-- One row of `AScore::calculatePermutationPeptideScores_`
(AScore.cpp:510-537): the ten depth scores of one permutation's theoretical
spectrum against the windowed observed spectrum. -/
noncomputable def calculatePermutationPeptideScores (th : List ℚ)
    (windows : List (List ℚ)) (tol : ℚ) (ppm : Bool) : List ℝ :=
  (cumulativeScores th windows tol ppm).map depthScore

/-- The depth-selection loop of
`AScore::determineHighestScoringPermutations_` (AScore.cpp:249-268): walks
the aligned score vectors with `depth` starting at 1, keeping the first
depth whose score difference strictly exceeds the running maximum. -/
noncomputable def determinePeakDepthAux : List (ℝ × ℝ) → ℕ → ℝ → ℕ → ℕ
  | [], _, _, best => best
  | (a, b) :: rest, depth, maxDiff, best =>
    if a - b > maxDiff then determinePeakDepthAux rest (depth + 1) (a - b) depth
    else determinePeakDepthAux rest (depth + 1) maxDiff best

/-- Depth selection on a pair of ten-entry score vectors: running maximum
starts at 0 and the selected depth defaults to 1 (AScore.cpp:251-252). -/
noncomputable def determinePeakDepth (withScores withoutScores : List ℝ) : ℕ :=
  determinePeakDepthAux (withScores.zip withoutScores) 1 0 1

/-- Rational mirror of the depth-selection loop, used to evaluate it: score
differences `(-10 log10 a) - (-10 log10 b)` compare exactly like the
probability ratios `b / a`, and the initial maximum 0 like the ratio 1. -/
def ratioDepthAux : List ℚ → ℕ → ℚ → ℕ → ℕ
  | [], _, _, best => best
  | r :: rest, depth, maxRat, best =>
    if r > maxRat then ratioDepthAux rest (depth + 1) r depth
    else ratioDepthAux rest (depth + 1) maxRat best

/-- Rational mirror of `determinePeakDepth` on the list of per-depth
probability ratios. -/
def ratioDepth (ratios : List ℚ) : ℕ :=
  ratioDepthAux ratios 1 1 1

/-- The peak depth the source selects for an ambiguous site whose best
assignment has theoretical spectrum `th1` and whose counterfactual has
`th2`: the selection loop applied to the two full-spectrum score vectors of
`calculatePermutationPeptideScores_` (AScore.cpp:253-256). -/
noncomputable def sitePeakDepth (th1 th2 : List ℚ) (windows : List (List ℚ))
    (tol : ℚ) (ppm : Bool) : ℕ :=
  determinePeakDepth (calculatePermutationPeptideScores th1 windows tol ppm)
    (calculatePermutationPeptideScores th2 windows tol ppm)

/-- The peak depth described by the spec's §4.5 step 4: the same selection
loop, but fed with depth scores computed against the site-determining
(differential) ion sets only. -/
noncomputable def specSitePeakDepth (th1 th2 : List ℚ) (windows : List (List ℚ))
    (tol : ℚ) (ppm : Bool) : ℕ :=
  determinePeakDepth
    (calculatePermutationPeptideScores (computeSiteDeterminingIons th1 th2).1 windows tol ppm)
    (calculatePermutationPeptideScores (computeSiteDeterminingIons th1 th2).2 windows tol ppm)

/-- The predicate of the do-while search in
`AScore::determineHighestScoringPermutations_` (AScore.cpp:201-232): the
assignment `other` is accepted for position `i` of the best assignment when
it does not contain `best[i]` but contains `best[j]` for every other `j`. -/
def isCounterfactualFor (best : List ℕ) (i : ℕ) (other : List ℕ) : Bool :=
  (List.range best.length).all fun j =>
    if j = i then !(other.contains (best.getD j 0)) else other.contains (best.getD j 0)

/-- Lower edge of the windowed m/z range (AScore.cpp:482): the first peak's
position rounded down to a multiple of 100. -/
def spectLowerBound (spectrum : List Peak) : ℚ :=
  ((⌊(spectrum.headD ⟨0, 0⟩).mz / 100⌋ * 100 : ℤ) : ℚ)

/-- Upper edge of the windowed m/z range (AScore.cpp:483): the last peak's
position rounded up to a multiple of 100. -/
def spectUpperBound (spectrum : List Peak) : ℚ :=
  ((⌈(spectrum.getLastD ⟨0, 0⟩).mz / 100⌉ * 100 : ℤ) : ℚ)

/-- Number of 100 m/z windows (AScore.cpp:484). -/
def numberOfWindows (spectrum : List Peak) : ℕ :=
  (⌈(spectUpperBound spectrum - spectLowerBound spectrum) / 100⌉).toNat

/-- The peak-consuming loop of `AScore::peakPickingPerWindowsInSpectrum_`
(AScore.cpp:490-506): window `i` takes the remaining peaks whose position is
at most `bound + 100 * i` — an inclusive comparison. -/
def windowSplit : ℚ → ℕ → List Peak → List (List Peak)
  | _, 0, _ => []
  | bound, n + 1, peaks =>
    peaks.takeWhile (fun p => decide (p.mz ≤ bound))
      :: windowSplit (bound + 100) n (peaks.dropWhile fun p => decide (p.mz ≤ bound))

/-- The raw (pre top-10) windows of `AScore::peakPickingPerWindowsInSpectrum_`. -/
def rawWindows (spectrum : List Peak) : List (List Peak) :=
  windowSplit (spectLowerBound spectrum + 100) (numberOfWindows spectrum) spectrum

/-- Descending sort by intensity (`sortByIntensity(true)`, AScore.cpp:499). -/
def sortByIntensityDesc (l : List Peak) : List Peak :=
  l.mergeSort fun p q => decide (q.intensity ≤ p.intensity)

/-- `AScore::peakPickingPerWindowsInSpectrum_` (AScore.cpp:478-508): per raw
window, the up-to-ten most intense peaks. -/
def peakPickingPerWindowsInSpectrum (spectrum : List Peak) : List (List Peak) :=
  (rawWindows spectrum).map fun w => (sortByIntensityDesc w).take 10

/-- The interval predicate characterizing raw window `i` when the first
window's inclusive upper bound is `bound`: window 0 holds the peaks with
`mz ≤ bound`, window `i+1` those with `bound + 100 i < mz ≤ bound + 100 (i+1)`. -/
def windowPred (bound : ℚ) : ℕ → Peak → Bool
  | 0, p => decide (p.mz ≤ bound)
  | i + 1, p => decide (bound + 100 * i < p.mz) && decide (p.mz ≤ bound + 100 * (i + 1))

end AScoreModel

namespace AScoreModel

/-- `ratAbs` is the absolute value. -/
theorem ratAbs_eq_abs (q : ℚ) : ratAbs q = |q| := by
  rw [ratAbs, abs]
  rcases lt_or_le q 0 with h | h
  · rw [if_pos h]
    exact (max_eq_right (by linarith)).symm
  · rw [if_neg (not_lt.mpr h)]
    exact (max_eq_left (by linarith)).symm

/-- The binomial-tail loop computes the closed-form sum over `Finset.Icc`. -/
theorem binomSumFrom_eq (N : ℕ) (p : ℚ) :
    ∀ fuel k, N + 1 - k ≤ fuel →
      binomSumFrom N p fuel k
        = ∑ j ∈ Finset.Icc k N, (N.choose j : ℚ) * p ^ j * (1 - p) ^ (N - j) := by
  intro fuel
  induction fuel with
  | zero =>
    intro k hk
    have hkN : N < k := by omega
    rw [binomSumFrom, Finset.Icc_eq_empty (by omega), Finset.sum_empty]
  | succ fuel ih =>
    intro k hk
    rw [binomSumFrom]
    by_cases hkN : k ≤ N
    · rw [if_pos hkN]
      have hins : Finset.Icc k N = insert k (Finset.Icc (k + 1) N) := by
        ext x
        simp only [Finset.mem_Icc, Finset.mem_insert]
        omega
      rw [hins, Finset.sum_insert (by simp), ih (k + 1) (by omega)]
    · rw [if_neg hkN, Finset.Icc_eq_empty (by omega), Finset.sum_empty]

/-- Claim C4: `computeCumulativeScore_(N, n, p)` returns exactly 1 whenever
`n = 0` (for any `N` and any `p` in `[0,1]`), and for `1 ≤ n ≤ N` it returns
the right binomial tail `∑ j = n..N, C(N,j) p^j (1-p)^(N-j)`. -/
theorem computeCumulativeScore_spec (N n : ℕ) (p : ℚ) :
    (n = 0 → 0 ≤ p → p ≤ 1 → computeCumulativeScore N n p = 1) ∧
    (1 ≤ n → n ≤ N →
      computeCumulativeScore N n p
        = ∑ j ∈ Finset.Icc n N, (N.choose j : ℚ) * p ^ j * (1 - p) ^ (N - j)) := by
  constructor
  · intro h _ _
    simp [computeCumulativeScore, h]
  · intro h1 _
    have hn : n ≠ 0 := by omega
    rw [computeCumulativeScore, if_neg hn]
    exact binomSumFrom_eq N p (N + 1 - n) n le_rfl

/-- Witness for C4 at `N = 5, n = 0, p = 1/3` and `N = 4, n = 2, p = 1/4`. -/
theorem computeCumulativeScore_spec_witness :
    computeCumulativeScore 5 0 (1/3) = 1 ∧
    computeCumulativeScore 4 2 (1/4)
      = ∑ j ∈ Finset.Icc 2 4, ((4).choose j : ℚ) * (1/4) ^ j * (1 - 1/4) ^ (4 - j) :=
  ⟨(computeCumulativeScore_spec 5 0 (1/3)).1 rfl (by norm_num) (by norm_num),
    (computeCumulativeScore_spec 4 2 (1/4)).2 (by norm_num) (by norm_num)⟩

/-- Claim C1, counterexample: on the spec's own depth-score vector
`[2,4,6,6,6,6,4,2,1,1]` the weighted score of `AScore::peptideScore_` is
3.25, not the claimed 3.9. -/
theorem peptideScore_example_ne :
    peptideScore [2, 4, 6, 6, 6, 6, 4, 2, 1, 1] ≠ 39/10 := by
  norm_num [peptideScore]

/-- Claim C1 (amended): the weighted score is the fixed-weight linear
combination with weights `[0.5, 0.75, 1, 1, 1, 1, 0.75, 0.5, 0.25, 0.25]`
divided by 10, and on `[2,4,6,6,6,6,4,2,1,1]` it equals 3.25. -/
theorem peptideScore_weighted (s0 s1 s2 s3 s4 s5 s6 s7 s8 s9 : ℚ) :
    peptideScore [s0, s1, s2, s3, s4, s5, s6, s7, s8, s9]
      = (List.zipWith (fun w s => w * s)
          [0.5, 0.75, 1, 1, 1, 1, 0.75, 0.5, 0.25, 0.25]
          [s0, s1, s2, s3, s4, s5, s6, s7, s8, s9]).sum / 10
    ∧ peptideScore [2, 4, 6, 6, 6, 6, 4, 2, 1, 1] = 13/4 := by
  constructor
  · simp only [peptideScore, List.zipWith, List.sum_cons, List.sum_nil, List.getD]
    norm_num
    ring
  · norm_num [peptideScore]

/-- Claim C3: failing input.  With the theoretical spectrum `[100.2, 900]`
(so `N = 2`) and a single window holding the three observed peaks
`[100, 100.2, 100.4]`, depth 2 matches all three peaks to the ion at 100.2
under tolerance 0.5, so `n = 3 > N = 2` — violating the source's own
precondition `n ≤ N` — and `computeCumulativeScore_` (whose assertion is
compiled out in release builds) silently returns a probability of 0. -/
theorem matchedIons_exceed_trials :
    totalMatchedIons [1002/10, 900] [[100, 1002/10, 1004/10]] 2 (1/2) false = 3 ∧
    ([1002/10, 900] : List ℚ).length = 2 ∧
    computeCumulativeScore 2 3 (2/100) = 0 := by
  refine ⟨?_, rfl, ?_⟩
  · norm_num [totalMatchedIons, numberOfMatchedIons, numberOfMatchedIonsAux,
      matchesIon, findNearest, findNearestAux, ratAbs]
  · norm_num [computeCumulativeScore, binomSumFrom]

/-- `List.take` through the explicit `min` with the length. -/
theorem take_min_length {α : Type} (n : ℕ) (l : List α) :
    l.take (min n l.length) = l.take n := by
  rcases le_total n l.length with h | h
  · rw [min_eq_left h]
  · rw [min_eq_right h, List.take_of_length_le h, List.take_of_length_le (by omega)]

/-- The matched-ion counting loop counts the matching peaks among the first
`depth + 1 - i` remaining window entries. -/
theorem numberOfMatchedIonsAux_eq (th : List ℚ) (tol : ℚ) (ppm : Bool) (depth : ℕ) :
    ∀ (ws : List ℚ) (i : ℕ), i ≤ depth + 1 →
      numberOfMatchedIonsAux th tol ppm depth ws i
        = ((ws.take (depth + 1 - i)).filter (matchesIon th tol ppm)).length := by
  intro ws
  induction ws with
  | nil => intro i _; simp [numberOfMatchedIonsAux]
  | cons w ws ih =>
    intro i hi
    rw [numberOfMatchedIonsAux]
    by_cases h : i ≤ depth
    · rw [if_pos h]
      have hsub : depth + 1 - i = (depth - i) + 1 := by omega
      rw [hsub, List.take_succ_cons, List.filter_cons]
      rw [ih (i + 1) (by omega)]
      have hsub2 : depth + 1 - (i + 1) = depth - i := by omega
      rw [hsub2]
      by_cases hm : matchesIon th tol ppm w
      · simp [hm, Nat.add_comm]
      · simp [hm]
    · rw [if_neg h]
      have : depth + 1 - i = 0 := by omega
      rw [this]
      simp

/-- Claim C5: `numberOfMatchedIons_` examines exactly the first
`min(depth + 1, |window|)` peaks of the window (indices `0..depth`
inclusive: `depth + 1` peaks, not `depth`), matches each examined peak to
the nearest theoretical ion, and counts it if and only if the absolute
position error — divided by the theoretical position and scaled by 10^6
when the ppm flag is set — is strictly below the tolerance. -/
theorem numberOfMatchedIons_spec (th window : List ℚ) (depth : ℕ) (tol : ℚ) (ppm : Bool) :
    numberOfMatchedIons th window depth tol ppm
      = ((window.take (min (depth + 1) window.length)).filter fun mz =>
          match findNearest th mz with
          | none => false
          | some idx =>
            decide ((if ppm then |th.getD idx 0 - mz| / th.getD idx 0 * 1000000
                else |th.getD idx 0 - mz|) < tol)).length := by
  rw [numberOfMatchedIons, numberOfMatchedIonsAux_eq th tol ppm depth window 0 (by omega),
    Nat.sub_zero, ← take_min_length (depth + 1) window]
  refine congrArg List.length (List.filter_congr ?_)
  intro mz _
  simp only [matchesIon]
  cases hf : findNearest th mz with
  | none => rfl
  | some idx => simp only [ratAbs_eq_abs]

/-- Claim C9: on an empty observed spectrum, `compute` returns a copy of the
input hit whose score is reset to 0 — same sequence, same meta values — and
the result does not depend on any downstream stage (windowing, scoring,
ranking, site resolution). -/
theorem compute_empty_spectrum (unmod : List Char → List Char)
    (downstream : PeptideHit → ℕ → List ℕ → PeptideHit) (hit : PeptideHit) :
    compute unmod downstream hit [] = { hit with score := 0 } ∧
    (compute unmod downstream hit []).sequence = hit.sequence ∧
    (compute unmod downstream hit []).metaValues = hit.metaValues :=
  ⟨rfl, rfl, rfl⟩

/-- Every assignment produced by the subset enumeration is an in-order
sublist of `sites` of length exactly `k`. -/
theorem computePermutations_sound :
    ∀ (sites : List ℕ) (k : ℕ), ∀ t ∈ computePermutations sites k,
      t.Sublist sites ∧ t.length = k := by
  intro sites
  induction sites with
  | nil =>
    intro k t ht
    match k with
    | 0 => simp [computePermutations] at ht
    | 1 => simp [computePermutations] at ht
    | k + 2 => simp [computePermutations] at ht
  | cons s rest ih =>
    intro k t ht
    match k with
    | 0 => simp [computePermutations] at ht
    | 1 =>
      simp only [computePermutations, List.mem_map] at ht
      obtain ⟨x, hx, rfl⟩ := ht
      exact ⟨List.singleton_sublist.mpr hx, rfl⟩
    | k + 2 =>
      rw [computePermutations] at ht
      by_cases hlen : (s :: rest).length = k + 2
      · rw [if_pos hlen] at ht
        rw [List.mem_singleton] at ht
        subst ht
        exact ⟨List.Sublist.refl _, hlen⟩
      · rw [if_neg hlen] at ht
        rw [List.mem_append] at ht
        rcases ht with ht | ht
        · rw [List.mem_map] at ht
          obtain ⟨r, hr, rfl⟩ := ht
          obtain ⟨hs, hl⟩ := ih (k + 1) r hr
          exact ⟨List.cons_sublist_cons.mpr hs, by simp [hl]⟩
        · obtain ⟨hs, hl⟩ := ih (k + 2) t ht
          exact ⟨hs.trans (List.sublist_cons_self s rest), hl⟩

/-- Every in-order sublist of `sites` of length `k ≥ 1` is produced by the
subset enumeration. -/
theorem computePermutations_complete :
    ∀ (sites : List ℕ) (k : ℕ) (t : List ℕ), 1 ≤ k → t.Sublist sites →
      t.length = k → t ∈ computePermutations sites k := by
  intro sites
  induction sites with
  | nil =>
    intro k t hk ht hl
    have h0 : t = [] := List.sublist_nil.mp ht
    subst h0
    simp only [List.length_nil] at hl
    omega
  | cons s rest ih =>
    intro k t hk ht hl
    match k with
    | 1 =>
      match t, hl with
      | [x], _ =>
        have hx : x ∈ s :: rest := List.singleton_sublist.mp ht
        simp only [computePermutations, List.mem_map]
        exact ⟨x, hx, rfl⟩
    | k + 2 =>
      rw [computePermutations]
      by_cases hlen : (s :: rest).length = k + 2
      · rw [if_pos hlen]
        rw [List.mem_singleton]
        exact ht.eq_of_length (by omega)
      · rw [if_neg hlen]
        rw [List.mem_append]
        rcases List.sublist_cons_iff.mp ht with hts | ⟨r, rfl, hr⟩
        · refine Or.inr (ih (k + 2) t (by omega) hts hl)
        · refine Or.inl ?_
          rw [List.mem_map]
          exact ⟨r, ih (k + 1) r (by omega) hr (by simpa using hl), rfl⟩

/-- The subset enumeration produces exactly `C(|sites|, k)` assignments when
`1 ≤ k ≤ |sites|`. -/
theorem computePermutations_length :
    ∀ (sites : List ℕ) (k : ℕ), 1 ≤ k → k ≤ sites.length →
      (computePermutations sites k).length = sites.length.choose k := by
  intro sites
  induction sites with
  | nil =>
    intro k hk hk2
    simp only [List.length_nil] at hk2
    omega
  | cons s rest ih =>
    intro k hk hk2
    match k with
    | 1 => simp [computePermutations, Nat.choose_one_right]
    | k + 2 =>
      rw [computePermutations]
      by_cases hlen : (s :: rest).length = k + 2
      · rw [if_pos hlen, hlen, Nat.choose_self]
        rfl
      · rw [if_neg hlen]
        have hrest : k + 2 ≤ rest.length := by
          simp only [List.length_cons] at hk2 hlen
          omega
        rw [List.length_append, List.length_map,
          ih (k + 1) (by omega) (by omega), ih (k + 2) (by omega) hrest,
          List.length_cons, Nat.choose_succ_succ]

/-- Existence of an in-order extension of a sublist to any prescribed length. -/
theorem exists_sublist_of_length :
    ∀ (s l : List ℕ), l.Sublist s → ∀ m, l.length ≤ m → m ≤ s.length →
      ∃ t, l.Sublist t ∧ t.Sublist s ∧ t.length = m := by
  intro s
  induction s with
  | nil =>
    intro l hl m hm1 hm2
    have h0 : l = [] := List.sublist_nil.mp hl
    subst h0
    simp only [List.length_nil] at hm1 hm2
    exact ⟨[], List.Sublist.refl [], List.nil_sublist [],
      by simp only [List.length_nil]; omega⟩
  | cons a s' ih =>
    intro l hl m hm1 hm2
    rcases List.sublist_cons_iff.mp hl with hls | ⟨r, rfl, hr⟩
    · by_cases hm : m ≤ s'.length
      · obtain ⟨t, h1, h2, h3⟩ := ih l hls m hm1 hm
        exact ⟨t, h1, h2.cons a, h3⟩
      · have hm' : m = s'.length + 1 := by
          simp only [List.length_cons] at hm2
          omega
        obtain ⟨t, h1, h2, h3⟩ := ih l hls s'.length (by
          have := hls.length_le
          omega) le_rfl
        exact ⟨a :: t, h1.cons a, List.cons_sublist_cons.mpr h2, by simp [h3, hm']⟩
    · have hm1' : r.length ≤ m - 1 := by
        simp only [List.length_cons] at hm1
        omega
      have hm2' : m - 1 ≤ s'.length := by
        simp only [List.length_cons] at hm2
        omega
      obtain ⟨t, h1, h2, h3⟩ := ih r hr (m - 1) hm1' hm2'
      refine ⟨a :: t, List.cons_sublist_cons.mpr h1, List.cons_sublist_cons.mpr h2, ?_⟩
      simp only [List.length_cons, h3]
      have : 1 ≤ m := by
        simp only [List.length_cons] at hm1
        omega
      omega

/-- A sublist avoiding `a` is also a sublist of `s.erase a` when `s` has no
duplicates. -/
theorem sublist_erase_of_not_mem {l s : List ℕ} (hls : l.Sublist s)
    (hs : s.Nodup) (a : ℕ) (ha : a ∉ l) : l.Sublist (s.erase a) := by
  rw [List.Nodup.erase_eq_filter hs a]
  have hl : l.filter (fun x => x != a) = l := by
    rw [List.filter_eq_self]
    intro x hx
    simp only [bne_iff_ne, ne_eq]
    intro h
    exact ha (h ▸ hx)
  have hstep := hls.filter (fun x => x != a)
  rw [hl] at hstep
  exact hstep

/-- Claim C6 (amended): for a duplicate-free site list and `1 ≤ k ≤ |sites|`,
`computePermutations_` returns exactly `C(|sites|, k)` assignments, each an
in-order selection of `k` distinct elements of `sites`, jointly covering all
of `sites`; for `k = 0` it returns the empty list (so 0 assignments, not
`C(|sites|, 0) = 1`). -/
theorem computePermutations_spec (sites : List ℕ) (k : ℕ) (hnd : sites.Nodup)
    (h1 : 1 ≤ k) (h2 : k ≤ sites.length) :
    (computePermutations sites k).length = sites.length.choose k ∧
    (∀ t ∈ computePermutations sites k,
      t.length = k ∧ t.Nodup ∧ ∀ x ∈ t, x ∈ sites) ∧
    (∀ x ∈ sites, ∃ t ∈ computePermutations sites k, x ∈ t) ∧
    computePermutations sites 0 = [] := by
  refine ⟨computePermutations_length sites k h1 h2, ?_, ?_, by simp [computePermutations]⟩
  · intro t ht
    obtain ⟨hs, hl⟩ := computePermutations_sound sites k t ht
    exact ⟨hl, hs.nodup hnd, fun x hx => hs.subset hx⟩
  · intro x hx
    obtain ⟨t, h1', h2', h3'⟩ :=
      exists_sublist_of_length sites [x] (List.singleton_sublist.mpr hx) k
        (by simpa using h1) h2
    exact ⟨t, computePermutations_complete sites k t h1 h2' h3',
      h1'.subset (List.mem_singleton.mpr rfl)⟩

/-- Witness for C6 (amended) at `sites = [0, 1, 2]`, `k = 2`. -/
theorem computePermutations_spec_witness :
    (computePermutations [0, 1, 2] 2).length = ([0, 1, 2] : List ℕ).length.choose 2 ∧
    (∀ t ∈ computePermutations [0, 1, 2] 2,
      t.length = 2 ∧ t.Nodup ∧ ∀ x ∈ t, x ∈ ([0, 1, 2] : List ℕ)) ∧
    (∀ x ∈ ([0, 1, 2] : List ℕ), ∃ t ∈ computePermutations [0, 1, 2] 2, x ∈ t) ∧
    computePermutations [0, 1, 2] 0 = [] :=
  computePermutations_spec [0, 1, 2] 2 (by decide) (by decide) (by decide)

/-- Claim C6, counterexample: for `k = 0` the enumeration returns the empty
list, so its size is 0 and not `C(|sites|, 0) = 1`; the claimed cardinality
`C(|sites|, k)` fails at `k = 0`. -/
theorem computePermutations_zero_ne_choose :
    (computePermutations [0] 0).length ≠ ([0] : List ℕ).length.choose 0 := by
  simp [computePermutations]

/-- Removing position `i` from a list keeps the element at any other
position. -/
theorem getD_mem_eraseIdx (l : List ℕ) (i j : ℕ) (hj : j < l.length) (hne : j ≠ i) :
    l.getD j 0 ∈ l.eraseIdx i := by
  rw [List.eraseIdx_eq_take_drop_succ, List.mem_append]
  rcases Nat.lt_or_ge j i with h | h
  · left
    have hjt : j < (l.take i).length := by
      rw [List.length_take]
      omega
    have hg : (l.take i).getD j 0 = l.getD j 0 := by
      rw [List.getD_eq_getElem _ 0 hjt, List.getD_eq_getElem l 0 hj]
      exact List.getElem_take l
    rw [← hg, List.getD_eq_getElem _ 0 hjt]
    exact List.getElem_mem hjt
  · right
    have hjd : j - (i + 1) < (l.drop (i + 1)).length := by
      rw [List.length_drop]
      omega
    have hg : (l.drop (i + 1)).getD (j - (i + 1)) 0 = l.getD j 0 := by
      rw [List.getD_eq_getElem _ 0 hjd, List.getD_eq_getElem l 0 hj]
      have hd : (l.drop (i + 1)).getD (j - (i + 1)) 0
          = l.getD ((i + 1) + (j - (i + 1))) 0 := by
        rw [List.getD_eq_getElem _ 0 hjd, List.getD_eq_getElem l 0 (by omega)]
        exact List.getElem_drop l
      rw [List.getD_eq_getElem _ 0 hjd, List.getD_eq_getElem l 0 (by omega)] at hd
      have hsum : (i + 1) + (j - (i + 1)) = j := by omega
      simp only [hsum] at hd
      exact hd
    rw [← hg, List.getD_eq_getElem _ 0 hjd]
    exact List.getElem_mem hjd

/-- In a duplicate-free list, the element at position `i` is gone after
removing position `i`. -/
theorem not_mem_eraseIdx_self {l : List ℕ} (hnd : l.Nodup) (i : ℕ) (hi : i < l.length) :
    l.getD i 0 ∉ l.eraseIdx i := by
  rw [List.eraseIdx_eq_take_drop_succ]
  have hdecomp : l.take i ++ l.getD i 0 :: l.drop (i + 1) = l := by
    rw [List.getD_eq_getElem l 0 hi, List.getElem_cons_drop, List.take_append_drop]
  have hnd2 : (l.take i ++ l.getD i 0 :: l.drop (i + 1)).Nodup := by
    rw [hdecomp]
    exact hnd
  rw [List.nodup_middle, List.nodup_cons] at hnd2
  exact hnd2.1

/-- Claim C7: whenever the resolver runs (`0 < k < |sites|`), then for every
position `i` of the best assignment, any walk through the ranking that
reaches all assignments other than the best one finds an assignment that
lacks the best assignment's site `i` but contains all its other sites — the
do-while search loop terminates before exhausting the ranking. -/
theorem counterfactual_search_succeeds (sites : List ℕ) (k : ℕ)
    (hnd : sites.Nodup) (hk1 : 1 ≤ k) (hk2 : k < sites.length)
    (bIdx : ℕ) (hb : bIdx < (computePermutations sites k).length)
    (i : ℕ) (hi : i < k) (walk : List ℕ)
    (hw : ∀ j, j < (computePermutations sites k).length → j ≠ bIdx → j ∈ walk) :
    (walk.find? fun j =>
      isCounterfactualFor ((computePermutations sites k).getD bIdx []) i
        ((computePermutations sites k).getD j [])).isSome := by
  set perms := computePermutations sites k with hperms
  set best := perms.getD bIdx [] with hbest
  have hbestmem : best ∈ perms := by
    rw [hbest, List.getD_eq_getElem perms [] hb]
    exact List.getElem_mem hb
  obtain ⟨hbsub, hblen⟩ := computePermutations_sound sites k best hbestmem
  have hbnd : best.Nodup := hbsub.nodup hnd
  have hik : i < best.length := by omega
  set bi := best.getD i 0 with hbi
  have hbimem : bi ∈ best := by
    rw [hbi, List.getD_eq_getElem best 0 hik]
    exact List.getElem_mem hik
  have hbisites : bi ∈ sites := hbsub.subset hbimem
  -- the counterfactual subset: best minus position i, refilled to size k
  -- inside sites.erase bi
  have herase1 : (best.eraseIdx i).Sublist (sites.erase bi) := by
    refine sublist_erase_of_not_mem ((best.eraseIdx_sublist i).trans hbsub) hnd bi ?_
    exact not_mem_eraseIdx_self hbnd i hik
  have herlen : (best.eraseIdx i).length = k - 1 := by
    rw [List.length_eraseIdx, if_pos hik, hblen]
  have hsiteslen : (sites.erase bi).length = sites.length - 1 :=
    List.length_erase_of_mem hbisites
  obtain ⟨t, ht1, ht2, ht3⟩ :=
    exists_sublist_of_length (sites.erase bi) (best.eraseIdx i) herase1 k
      (by omega) (by omega)
  have htsub : t.Sublist sites := ht2.trans (List.erase_sublist bi sites)
  have hbit : bi ∉ t := by
    intro hmem
    have : bi ∈ sites.erase bi := ht2.subset hmem
    exact ((List.Nodup.mem_erase_iff hnd).mp this).1 rfl
  have htperm : t ∈ perms := computePermutations_complete sites k t hk1 htsub ht3
  obtain ⟨j0, hj0, hj0eq⟩ := List.mem_iff_getElem.mp htperm
  have hj0get : perms.getD j0 [] = t := by
    rw [List.getD_eq_getElem perms [] hj0, hj0eq]
  have hpred : isCounterfactualFor best i (perms.getD j0 []) = true := by
    rw [hj0get, isCounterfactualFor, List.all_eq_true]
    intro j hj
    rw [List.mem_range] at hj
    by_cases hji : j = i
    · subst hji
      rw [if_pos rfl]
      simp only [List.contains, List.elem_eq_mem, Bool.not_eq_true', decide_eq_false_iff_not]
      exact hbit
    · rw [if_neg hji]
      have hjmem : best.getD j 0 ∈ best.eraseIdx i := getD_mem_eraseIdx best i j hj hji
      have hmem2 : best.getD j 0 ∈ t := ht1.subset hjmem
      simp only [List.contains, List.elem_eq_mem, decide_eq_true_eq]
      exact hmem2
  have hj0ne : j0 ≠ bIdx := by
    intro heq
    have hteq : t = best := by
      rw [← hj0get, heq, hbest]
    rw [hteq] at hbit
    exact hbit hbimem
  rw [List.find?_isSome]
  exact ⟨j0, hw j0 hj0 hj0ne, hpred⟩

/-- Membership in a directional spectrum difference. -/
theorem mem_getSpectrumDifference {A B : List ℚ} {x : ℚ} :
    x ∈ getSpectrumDifference A B ↔ x ∈ A ∧ x ∉ B := by
  rw [getSpectrumDifference, List.mem_filter]
  simp only [List.contains, List.elem_eq_mem, Bool.not_eq_true', decide_eq_false_iff_not]

/-- The underlying finite set of a directional spectrum difference. -/
theorem getSpectrumDifference_toFinset {A B : List ℚ} :
    (getSpectrumDifference A B).toFinset = A.toFinset \ B.toFinset := by
  ext x
  rw [List.mem_toFinset, mem_getSpectrumDifference, Finset.mem_sdiff,
    List.mem_toFinset, List.mem_toFinset]

/-- For duplicate-free spectra of equal size the two directional differences
have equal cardinality. -/
theorem getSpectrumDifference_length_eq {A B : List ℚ} (hA : A.Nodup) (hB : B.Nodup)
    (hlen : A.length = B.length) :
    (getSpectrumDifference A B).length = (getSpectrumDifference B A).length := by
  have hndAB : (getSpectrumDifference A B).Nodup := hA.filter _
  have hndBA : (getSpectrumDifference B A).Nodup := hB.filter _
  have hcardAB : (getSpectrumDifference A B).length = (A.toFinset \ B.toFinset).card := by
    rw [← List.toFinset_card_of_nodup hndAB, getSpectrumDifference_toFinset]
  have hcardBA : (getSpectrumDifference B A).length = (B.toFinset \ A.toFinset).card := by
    rw [← List.toFinset_card_of_nodup hndBA, getSpectrumDifference_toFinset]
  have h1 := Finset.card_sdiff_add_card_inter A.toFinset B.toFinset
  have h2 := Finset.card_sdiff_add_card_inter B.toFinset A.toFinset
  rw [Finset.inter_comm] at h2
  have hc : A.toFinset.card = B.toFinset.card := by
    rw [List.toFinset_card_of_nodup hA, List.toFinset_card_of_nodup hB, hlen]
  omega

/-- Claim C8: for two duplicate-free theoretical spectra of equal ion count
that actually differ (as produced for assignments differing in exactly one
site), the two directional differences of `computeSiteDeterminingIons_` are
both non-empty, have equal cardinality, and are disjoint from the ions
common to both spectra. -/
theorem computeSiteDeterminingIons_spec (th1 th2 : List ℚ) (h1 : th1.Nodup)
    (h2 : th2.Nodup) (hlen : th1.length = th2.length) (hne : ∃ x ∈ th1, x ∉ th2) :
    (computeSiteDeterminingIons th1 th2).1 ≠ [] ∧
    (computeSiteDeterminingIons th1 th2).2 ≠ [] ∧
    (computeSiteDeterminingIons th1 th2).1.length
      = (computeSiteDeterminingIons th1 th2).2.length ∧
    (∀ x ∈ (computeSiteDeterminingIons th1 th2).1, x ∈ th1 ∧ x ∉ th2) ∧
    (∀ x ∈ (computeSiteDeterminingIons th1 th2).2, x ∈ th2 ∧ x ∉ th1) := by
  obtain ⟨w, hw1, hw2⟩ := hne
  have hperm1 : (sortByPosition (getSpectrumDifference th1 th2)).Perm
      (getSpectrumDifference th1 th2) := List.mergeSort_perm _ _
  have hperm2 : (sortByPosition (getSpectrumDifference th2 th1)).Perm
      (getSpectrumDifference th2 th1) := List.mergeSort_perm _ _
  have hlen12 : (computeSiteDeterminingIons th1 th2).1.length
      = (computeSiteDeterminingIons th1 th2).2.length := by
    rw [computeSiteDeterminingIons]
    rw [hperm1.length_eq, hperm2.length_eq]
    exact getSpectrumDifference_length_eq h1 h2 hlen
  have hmem1 : w ∈ (computeSiteDeterminingIons th1 th2).1 := by
    rw [computeSiteDeterminingIons]
    rw [hperm1.mem_iff, mem_getSpectrumDifference]
    exact ⟨hw1, hw2⟩
  have hne1 : (computeSiteDeterminingIons th1 th2).1 ≠ [] :=
    List.ne_nil_of_mem hmem1
  refine ⟨hne1, ?_, hlen12, ?_, ?_⟩
  · rw [← List.length_pos] at hne1 ⊢
    omega
  · intro x hx
    rw [computeSiteDeterminingIons] at hx
    rw [hperm1.mem_iff, mem_getSpectrumDifference] at hx
    exact hx
  · intro x hx
    rw [computeSiteDeterminingIons] at hx
    rw [hperm2.mem_iff, mem_getSpectrumDifference] at hx
    exact hx

/-- Witness for C8 at `th1 = [1, 2, 3]`, `th2 = [1, 2, 4]`. -/
theorem computeSiteDeterminingIons_spec_witness :
    (computeSiteDeterminingIons [1, 2, 3] [1, 2, 4]).1 ≠ [] ∧
    (computeSiteDeterminingIons [1, 2, 3] [1, 2, 4]).2 ≠ [] ∧
    (computeSiteDeterminingIons [1, 2, 3] [1, 2, 4]).1.length
      = (computeSiteDeterminingIons [1, 2, 3] [1, 2, 4]).2.length ∧
    (∀ x ∈ (computeSiteDeterminingIons [1, 2, 3] [1, 2, 4]).1,
      x ∈ ([1, 2, 3] : List ℚ) ∧ x ∉ ([1, 2, 4] : List ℚ)) ∧
    (∀ x ∈ (computeSiteDeterminingIons [1, 2, 3] [1, 2, 4]).2,
      x ∈ ([1, 2, 4] : List ℚ) ∧ x ∉ ([1, 2, 3] : List ℚ)) :=
  computeSiteDeterminingIons_spec [1, 2, 3] [1, 2, 4]
    (by norm_num [List.nodup_cons]) (by norm_num [List.nodup_cons]) rfl
    ⟨3, by norm_num, by norm_num⟩

/-- Witness for C7 at `sites = [0, 1, 2]`, `k = 1`, best index 0, site
position 0, with the walk `[1, 2]`. -/
theorem counterfactual_search_succeeds_witness :
    (List.find? (fun j =>
      isCounterfactualFor ((computePermutations [0, 1, 2] 1).getD 0 []) 0
        ((computePermutations [0, 1, 2] 1).getD j [])) [1, 2]).isSome :=
  counterfactual_search_succeeds [0, 1, 2] 1 (by decide) (by decide) (by decide)
    0 (by decide) 0 (by decide) [1, 2]
    (by
      intro j hj hne
      have : (computePermutations [0, 1, 2] 1).length = 3 := by decide
      rw [this] at hj
      simp only [List.mem_cons, List.mem_singleton]
      omega)

/-- On a position-sorted peak list, taking while `mz ≤ b` is filtering. -/
theorem takeWhile_mz_eq_filter (b : ℚ) :
    ∀ l : List Peak, l.Pairwise (fun p q => p.mz ≤ q.mz) →
      l.takeWhile (fun p => decide (p.mz ≤ b)) = l.filter fun p => decide (p.mz ≤ b) := by
  intro l
  induction l with
  | nil => intro _; rfl
  | cons p l ih =>
    intro hs
    rw [List.pairwise_cons] at hs
    rw [List.takeWhile_cons, List.filter_cons]
    by_cases hp : p.mz ≤ b
    · have hd : decide (p.mz ≤ b) = true := by simpa using hp
      rw [if_pos hd, if_pos hd, ih hs.2]
    · have hd : ¬(decide (p.mz ≤ b) = true) := by simpa using hp
      rw [if_neg hd, if_neg hd]
      symm
      rw [List.filter_eq_nil_iff]
      intro q hq
      simp only [decide_eq_true_eq]
      have hle := hs.1 q hq
      intro hqb
      exact hp (le_trans hle hqb)

/-- On a position-sorted peak list, dropping while `mz ≤ b` is filtering with
the negated predicate. -/
theorem dropWhile_mz_eq_filter (b : ℚ) :
    ∀ l : List Peak, l.Pairwise (fun p q => p.mz ≤ q.mz) →
      l.dropWhile (fun p => decide (p.mz ≤ b)) = l.filter fun p => !(decide (p.mz ≤ b)) := by
  intro l
  induction l with
  | nil => intro _; rfl
  | cons p l ih =>
    intro hs
    rw [List.pairwise_cons] at hs
    rw [List.dropWhile_cons, List.filter_cons]
    by_cases hp : p.mz ≤ b
    · have hd : decide (p.mz ≤ b) = true := by simpa using hp
      have hd2 : ¬((!(decide (p.mz ≤ b))) = true) := by simpa using hp
      rw [if_pos hd, if_neg hd2]
      exact ih hs.2
    · have hd : ¬(decide (p.mz ≤ b) = true) := by simpa using hp
      have hd2 : (!(decide (p.mz ≤ b))) = true := by simpa using hp
      rw [if_neg hd, if_pos hd2]
      congr 1
      symm
      rw [List.filter_eq_self]
      intro q hq
      simp only [Bool.not_eq_true', decide_eq_false_iff_not]
      have hle := hs.1 q hq
      intro hqb
      exact hp (le_trans hle hqb)

/-- The window intervals shift by one window width across the recursion. -/
theorem windowPred_shift (b : ℚ) (i : ℕ) (p : Peak) :
    (windowPred (b + 100) i p && !(decide (p.mz ≤ b))) = windowPred b (i + 1) p := by
  rw [Bool.eq_iff_iff]
  cases i with
  | zero =>
    simp only [windowPred, Bool.and_eq_true, decide_eq_true_eq, Bool.not_eq_true',
      decide_eq_false_iff_not, Nat.cast_zero, Nat.cast_one]
    constructor
    · rintro ⟨h1, h2⟩
      rw [not_le] at h2
      constructor <;> linarith
    · rintro ⟨h1, h2⟩
      refine ⟨by linarith, ?_⟩
      rw [not_le]
      linarith
  | succ j =>
    simp only [windowPred, Bool.and_eq_true, decide_eq_true_eq, Bool.not_eq_true',
      decide_eq_false_iff_not]
    constructor
    · rintro ⟨⟨h1, h2⟩, h3⟩
      push_cast at h1 h2 ⊢
      constructor <;> linarith
    · rintro ⟨h1, h2⟩
      push_cast at h1 h2 ⊢
      refine ⟨⟨by linarith, by linarith⟩, ?_⟩
      rw [not_le]
      have hc : (0 : ℚ) ≤ 100 * ((j : ℚ) + 1) := by positivity
      linarith

/-- The window-splitting loop always produces `n` windows. -/
theorem windowSplit_length (b : ℚ) :
    ∀ (n : ℕ) (peaks : List Peak), (windowSplit b n peaks).length = n := by
  intro n
  induction n generalizing b with
  | zero => intro peaks; rfl
  | succ n ih =>
    intro peaks
    rw [windowSplit, List.length_cons, ih (b + 100)]

/-- Characterization of the raw windows of a sorted spectrum: window `i`
holds exactly the peaks of the interval given by `windowPred`. -/
theorem windowSplit_getD (b : ℚ) :
    ∀ (n i : ℕ), i < n → ∀ peaks : List Peak,
      peaks.Pairwise (fun p q => p.mz ≤ q.mz) →
      (windowSplit b n peaks).getD i [] = peaks.filter (windowPred b i) := by
  intro n
  induction n generalizing b with
  | zero => intro i hi; omega
  | succ n ih =>
    intro i hi peaks hs
    rw [windowSplit]
    cases i with
    | zero =>
      rw [List.getD_cons_zero, takeWhile_mz_eq_filter b peaks hs]
      rfl
    | succ i =>
      rw [List.getD_cons_succ]
      have hsorted' : (peaks.dropWhile fun p => decide (p.mz ≤ b)).Pairwise
          (fun p q => p.mz ≤ q.mz) := by
        rw [dropWhile_mz_eq_filter b peaks hs]
        exact List.Pairwise.sublist (List.filter_sublist peaks) hs
      rw [ih (b + 100) i (by omega) _ hsorted', dropWhile_mz_eq_filter b peaks hs,
        List.filter_filter]
      exact List.filter_congr fun p _ => windowPred_shift b i p

/-- Upper edge of a window interval. -/
theorem windowPred_upper {b : ℚ} {i : ℕ} {p : Peak} (h : windowPred b i p = true) :
    p.mz ≤ b + 100 * i := by
  cases i with
  | zero =>
    simp only [windowPred, decide_eq_true_eq] at h
    push_cast
    linarith
  | succ j =>
    simp only [windowPred, Bool.and_eq_true, decide_eq_true_eq] at h
    push_cast
    linarith [h.2]

/-- Lower edge of a window interval (for windows past the first). -/
theorem windowPred_lower {b : ℚ} {j : ℕ} {p : Peak} (h : windowPred b (j + 1) p = true) :
    b + 100 * j < p.mz := by
  simp only [windowPred, Bool.and_eq_true, decide_eq_true_eq] at h
  exact h.1

/-- Claim C10: for a sorted non-empty observed spectrum, the window-placement
loop of `peakPickingPerWindowsInSpectrum_` puts each peak into at most one
raw window, and a peak lying exactly on a window's upper boundary (the
floored lower bound plus a positive multiple of 100) lands in the lower of
the two adjacent windows, because the boundary comparison is inclusive. -/
theorem rawWindows_spec (spectrum : List Peak)
    (hs : spectrum.Pairwise (fun p q => p.mz ≤ q.mz)) :
    (∀ i j : ℕ, i ≠ j → ∀ p : Peak,
      p ∈ (rawWindows spectrum).getD i [] → p ∈ (rawWindows spectrum).getD j [] → False) ∧
    (∀ p ∈ spectrum, ∀ m : ℕ,
      p.mz = spectLowerBound spectrum + 100 * ((m : ℚ) + 1) →
      m + 1 ≤ numberOfWindows spectrum →
      p ∈ (rawWindows spectrum).getD m []) := by
  have hlen : (rawWindows spectrum).length = numberOfWindows spectrum :=
    windowSplit_length _ _ spectrum
  constructor
  · intro i j hij p hpi hpj
    wlog hlt : i < j generalizing i j
    · exact this j i (Ne.symm hij) hpj hpi (by omega)
    by_cases hj : j < numberOfWindows spectrum
    · have hi : i < numberOfWindows spectrum := by omega
      rw [rawWindows, windowSplit_getD _ _ i hi spectrum hs, List.mem_filter] at hpi
      rw [rawWindows, windowSplit_getD _ _ j hj spectrum hs, List.mem_filter] at hpj
      obtain ⟨j', rfl⟩ : ∃ j', j = j' + 1 := ⟨j - 1, by omega⟩
      have hup : p.mz ≤ spectLowerBound spectrum + 100 + 100 * i := windowPred_upper hpi.2
      have hlow : spectLowerBound spectrum + 100 + 100 * j' < p.mz := windowPred_lower hpj.2
      have hij' : (i : ℚ) ≤ (j' : ℚ) := by
        have hn : i ≤ j' := by omega
        exact_mod_cast hn
      nlinarith
    · rw [rawWindows, List.getD_eq_default] at hpj
      · simp at hpj
      · rw [← rawWindows, hlen]
        omega
  · intro p hp m hmz hm
    rw [rawWindows, windowSplit_getD _ _ m (by omega) spectrum hs, List.mem_filter]
    refine ⟨hp, ?_⟩
    cases m with
    | zero =>
      simp only [windowPred, decide_eq_true_eq]
      rw [hmz]
      push_cast
      linarith
    | succ j =>
      simp only [windowPred, Bool.and_eq_true, decide_eq_true_eq]
      rw [hmz]
      push_cast
      constructor <;> linarith

/-- For a probability in `(0, 1]` the depth score is `-10 log10 p` (the
`abs` only clears the sign of zero). -/
theorem depthScore_eq {q : ℚ} (h0 : 0 < q) (h1 : q ≤ 1) :
    depthScore q = (-10) * Real.logb 10 (q : ℝ) := by
  rw [depthScore, abs_of_nonneg]
  have hle : Real.logb 10 (q : ℝ) ≤ 0 :=
    Real.logb_nonpos (by norm_num) (by positivity) (by exact_mod_cast h1)
  nlinarith

/-- Difference of two depth scores as `10 log10` of the probability ratio. -/
theorem depthScore_sub {a b : ℚ} (ha0 : 0 < a) (ha1 : a ≤ 1) (hb0 : 0 < b)
    (hb1 : b ≤ 1) :
    depthScore a - depthScore b = 10 * Real.logb 10 ((b / a : ℚ) : ℝ) := by
  rw [depthScore_eq ha0 ha1, depthScore_eq hb0 hb1]
  push_cast
  rw [Real.logb_div (by exact_mod_cast hb0.ne') (by exact_mod_cast ha0.ne')]
  ring

/-- `10 log10` is strictly monotone on positive rationals. -/
theorem tenLogb_lt_iff {x y : ℚ} (hx : 0 < x) (hy : 0 < y) :
    10 * Real.logb 10 (x : ℝ) < 10 * Real.logb 10 (y : ℝ) ↔ x < y := by
  have h10 : (0 : ℝ) < 10 := by norm_num
  rw [mul_lt_mul_left h10,
    Real.logb_lt_logb_iff (by norm_num) (by exact_mod_cast hx) (by exact_mod_cast hy)]
  exact ⟨fun h => by exact_mod_cast h, fun h => by exact_mod_cast h⟩

/-- Sorting a one-element spectrum is the identity. -/
theorem sortByPosition_singleton (x : ℚ) : sortByPosition [x] = [x] :=
  List.perm_singleton.mp (List.mergeSort_perm [x] _)

/-- The depth-selection loop on depth-score vectors agrees with its rational
mirror on the probability-ratio list: score differences compare exactly like
probability ratios. -/
theorem determinePeakDepthAux_ratio :
    ∀ L : List (ℚ × ℚ),
      (∀ pq ∈ L, (0 < pq.1 ∧ pq.1 ≤ 1) ∧ (0 < pq.2 ∧ pq.2 ≤ 1)) →
      ∀ (d best : ℕ) (m : ℚ), 0 < m →
        determinePeakDepthAux (L.map (Prod.map depthScore depthScore)) d
            (10 * Real.logb 10 (m : ℝ)) best
          = ratioDepthAux (L.map fun pq => pq.2 / pq.1) d m best := by
  intro L
  induction L with
  | nil =>
    intro _ d best m _
    simp [determinePeakDepthAux, ratioDepthAux]
  | cons ab L ih =>
    intro hL d best m hm
    obtain ⟨a, b⟩ := ab
    obtain ⟨⟨ha0, ha1⟩, hb0, hb1⟩ := hL (a, b) (List.mem_cons_self _ _)
    have hL' : ∀ pq ∈ L, (0 < pq.1 ∧ pq.1 ≤ 1) ∧ (0 < pq.2 ∧ pq.2 ≤ 1) :=
      fun pq hpq => hL pq (List.mem_cons_of_mem _ hpq)
    have hba : 0 < b / a := div_pos hb0 ha0
    rw [List.map_cons, List.map_cons]
    rw [determinePeakDepthAux, ratioDepthAux]
    simp only [Prod.map_apply]
    rw [depthScore_sub ha0 ha1 hb0 hb1]
    by_cases hc : b / a > m
    · rw [if_pos ((tenLogb_lt_iff hm hba).mpr hc), if_pos hc]
      exact ih hL' (d + 1) d (b / a) hba
    · rw [if_neg (fun hgt => hc ((tenLogb_lt_iff hm hba).mp hgt)), if_neg hc]
      exact ih hL' (d + 1) best m hm

/-- The source's depth selection, rewritten over the rational probability
ratios of the two probability vectors. -/
theorem determinePeakDepth_eq_ratioDepth (P1 P2 : List ℚ)
    (h1 : ∀ q ∈ P1, 0 < q ∧ q ≤ 1) (h2 : ∀ q ∈ P2, 0 < q ∧ q ≤ 1) :
    determinePeakDepth (P1.map depthScore) (P2.map depthScore)
      = ratioDepth ((P1.zip P2).map fun pq => pq.2 / pq.1) := by
  rw [determinePeakDepth, ratioDepth, List.zip_map]
  have h0 : (0 : ℝ) = 10 * Real.logb 10 ((1 : ℚ) : ℝ) := by simp
  rw [h0]
  exact determinePeakDepthAux_ratio (P1.zip P2)
    (fun pq hpq => ⟨h1 pq.1 (List.of_mem_zip (by simpa using hpq)).1,
      h2 pq.2 (List.of_mem_zip (by simpa using hpq)).2⟩)
    1 1 1 one_pos

/-- If no score difference beats the running maximum, the selection keeps
the current best depth. -/
theorem determinePeakDepthAux_all_le :
    ∀ (pairs : List (ℝ × ℝ)) (d best : ℕ) (m : ℝ),
      (∀ pq ∈ pairs, pq.1 - pq.2 ≤ m) →
      determinePeakDepthAux pairs d m best = best := by
  intro pairs
  induction pairs with
  | nil => intro d best m _; rfl
  | cons ab pairs ih =>
    intro d best m hle
    obtain ⟨a, b⟩ := ab
    rw [determinePeakDepthAux,
      if_neg (not_lt.mpr (hle (a, b) (List.mem_cons_self _ _)))]
    exact ih (d + 1) best m fun pq hpq => hle pq (List.mem_cons_of_mem _ hpq)

/-- If some score difference beats the running maximum, the selection
returns the first position attaining the maximal difference: each earlier
difference is strictly smaller, each later one is no larger. -/
theorem determinePeakDepthAux_argmax :
    ∀ (pairs : List (ℝ × ℝ)) (d best : ℕ) (m : ℝ),
      (∃ pq ∈ pairs, m < pq.1 - pq.2) →
      ∃ i, i < pairs.length ∧
        determinePeakDepthAux pairs d m best = d + i ∧
        m < (pairs.getD i (0, 0)).1 - (pairs.getD i (0, 0)).2 ∧
        (∀ j, j < i →
          (pairs.getD j (0, 0)).1 - (pairs.getD j (0, 0)).2
            < (pairs.getD i (0, 0)).1 - (pairs.getD i (0, 0)).2) ∧
        (∀ j, i < j → j < pairs.length →
          (pairs.getD j (0, 0)).1 - (pairs.getD j (0, 0)).2
            ≤ (pairs.getD i (0, 0)).1 - (pairs.getD i (0, 0)).2) := by
  intro pairs
  induction pairs with
  | nil =>
    intro d best m hex
    obtain ⟨pq, hpq, _⟩ := hex
    exact absurd hpq (List.not_mem_nil pq)
  | cons ab pairs ih =>
    intro d best m hex
    obtain ⟨a, b⟩ := ab
    rw [determinePeakDepthAux]
    by_cases hm : m < a - b
    · rw [if_pos hm]
      by_cases hex2 : ∃ pq ∈ pairs, a - b < pq.1 - pq.2
      · obtain ⟨i', hi'len, hi'res, hi'top, hi'before, hi'after⟩ :=
          ih (d + 1) d (a - b) hex2
        refine ⟨i' + 1, by simpa using hi'len, ?_, ?_, ?_, ?_⟩
        · rw [hi'res]
          omega
        · rw [List.getD_cons_succ]
          exact lt_trans hm hi'top
        · intro j hj
          rw [List.getD_cons_succ]
          cases j with
          | zero =>
            rw [List.getD_cons_zero]
            exact hi'top
          | succ j' =>
            rw [List.getD_cons_succ]
            exact hi'before j' (by omega)
        · intro j hj hjlen
          rw [List.getD_cons_succ]
          obtain ⟨j', rfl⟩ : ∃ j', j = j' + 1 := ⟨j - 1, by omega⟩
          rw [List.getD_cons_succ]
          exact hi'after j' (by omega) (by simpa using hjlen)
      · push_neg at hex2
        rw [determinePeakDepthAux_all_le pairs (d + 1) d (a - b) hex2]
        refine ⟨0, by simp, by omega, ?_, ?_, ?_⟩
        · rw [List.getD_cons_zero]
          exact hm
        · intro j hj
          omega
        · intro j hj hjlen
          rw [List.getD_cons_zero]
          obtain ⟨j', rfl⟩ : ∃ j', j = j' + 1 := ⟨j - 1, by omega⟩
          rw [List.getD_cons_succ]
          have hmem : pairs.getD j' (0, 0) ∈ pairs := by
            rw [List.getD_eq_getElem pairs (0, 0) (by simpa using hjlen)]
            exact List.getElem_mem _
          exact hex2 _ hmem
    · rw [if_neg hm]
      have hex' : ∃ pq ∈ pairs, m < pq.1 - pq.2 := by
        obtain ⟨pq, hpq, hpq2⟩ := hex
        rcases List.mem_cons.mp hpq with rfl | hmem
        · exact absurd hpq2 hm
        · exact ⟨pq, hmem, hpq2⟩
      obtain ⟨i', hi'len, hi'res, hi'top, hi'before, hi'after⟩ :=
        ih (d + 1) best m hex'
      refine ⟨i' + 1, by simpa using hi'len, ?_, ?_, ?_, ?_⟩
      · rw [hi'res]
        omega
      · rw [List.getD_cons_succ]
        exact hi'top
      · intro j hj
        rw [List.getD_cons_succ]
        cases j with
        | zero =>
          rw [List.getD_cons_zero]
          exact (not_lt.mp hm).trans_lt hi'top
        | succ j' =>
          rw [List.getD_cons_succ]
          exact hi'before j' (by omega)
      · intro j hj hjlen
        rw [List.getD_cons_succ]
        obtain ⟨j', rfl⟩ : ∃ j', j = j' + 1 := ⟨j - 1, by omega⟩
        rw [List.getD_cons_succ]
        exact hi'after j' (by omega) (by simpa using hjlen)

/-- The score vector of one permutation always has exactly ten entries. -/
theorem calculatePermutationPeptideScores_length (th : List ℚ)
    (windows : List (List ℚ)) (tol : ℚ) (ppm : Bool) :
    (calculatePermutationPeptideScores th windows tol ppm).length = 10 := by
  rw [calculatePermutationPeptideScores, List.length_map, cumulativeScores,
    List.length_map, List.length_range]

/-- Claim C2 (amended): the peak depth the resolver selects for a site is
determined by the FULL-spectrum unweighted depth scores from
`calculatePermutationPeptideScores_` (not by scores restricted to the
site-determining ions): it is 1 plus the first index at which the score
difference `with − without` strictly exceeds every earlier difference and is
at least every later one, provided some difference is positive; otherwise it
defaults to depth 1. -/
theorem sitePeakDepth_fullSpectrum_argmax (th1 th2 : List ℚ)
    (windows : List (List ℚ)) (tol : ℚ) (ppm : Bool) (pairs : List (ℝ × ℝ))
    (hp : pairs = (calculatePermutationPeptideScores th1 windows tol ppm).zip
      (calculatePermutationPeptideScores th2 windows tol ppm)) :
    pairs.length = 10 ∧
    ((∀ pq ∈ pairs, pq.1 - pq.2 ≤ 0) →
      sitePeakDepth th1 th2 windows tol ppm = 1) ∧
    ((∃ pq ∈ pairs, 0 < pq.1 - pq.2) →
      ∃ i, i < pairs.length ∧ sitePeakDepth th1 th2 windows tol ppm = 1 + i ∧
        0 < (pairs.getD i (0, 0)).1 - (pairs.getD i (0, 0)).2 ∧
        (∀ j, j < i →
          (pairs.getD j (0, 0)).1 - (pairs.getD j (0, 0)).2
            < (pairs.getD i (0, 0)).1 - (pairs.getD i (0, 0)).2) ∧
        (∀ j, i < j → j < pairs.length →
          (pairs.getD j (0, 0)).1 - (pairs.getD j (0, 0)).2
            ≤ (pairs.getD i (0, 0)).1 - (pairs.getD i (0, 0)).2)) := by
  have hd : sitePeakDepth th1 th2 windows tol ppm
      = determinePeakDepthAux pairs 1 0 1 := by
    rw [sitePeakDepth, determinePeakDepth, hp]
  refine ⟨?_, ?_, ?_⟩
  · rw [hp, List.length_zip, calculatePermutationPeptideScores_length,
      calculatePermutationPeptideScores_length]
    rfl
  · intro hle
    rw [hd]
    exact determinePeakDepthAux_all_le pairs 1 1 0 hle
  · intro hex
    rw [hd]
    exact determinePeakDepthAux_argmax pairs 1 1 0 hex

/-- Witness for C2 (amended) at empty spectra and windows. -/
theorem sitePeakDepth_fullSpectrum_argmax_witness :
    ((calculatePermutationPeptideScores [] [] 1 false).zip
      (calculatePermutationPeptideScores [] [] 1 false)).length = 10 ∧
    ((∀ pq ∈ (calculatePermutationPeptideScores [] [] 1 false).zip
        (calculatePermutationPeptideScores [] [] 1 false), pq.1 - pq.2 ≤ 0) →
      sitePeakDepth [] [] [] 1 false = 1) ∧
    ((∃ pq ∈ (calculatePermutationPeptideScores [] [] 1 false).zip
        (calculatePermutationPeptideScores [] [] 1 false), 0 < pq.1 - pq.2) →
      ∃ i, i < ((calculatePermutationPeptideScores [] [] 1 false).zip
          (calculatePermutationPeptideScores [] [] 1 false)).length ∧
        sitePeakDepth [] [] [] 1 false = 1 + i ∧
        0 < (((calculatePermutationPeptideScores [] [] 1 false).zip
            (calculatePermutationPeptideScores [] [] 1 false)).getD i (0, 0)).1
          - (((calculatePermutationPeptideScores [] [] 1 false).zip
            (calculatePermutationPeptideScores [] [] 1 false)).getD i (0, 0)).2 ∧
        (∀ j, j < i →
          (((calculatePermutationPeptideScores [] [] 1 false).zip
              (calculatePermutationPeptideScores [] [] 1 false)).getD j (0, 0)).1
            - (((calculatePermutationPeptideScores [] [] 1 false).zip
              (calculatePermutationPeptideScores [] [] 1 false)).getD j (0, 0)).2
            < (((calculatePermutationPeptideScores [] [] 1 false).zip
              (calculatePermutationPeptideScores [] [] 1 false)).getD i (0, 0)).1
            - (((calculatePermutationPeptideScores [] [] 1 false).zip
              (calculatePermutationPeptideScores [] [] 1 false)).getD i (0, 0)).2) ∧
        (∀ j, i < j → j < ((calculatePermutationPeptideScores [] [] 1 false).zip
            (calculatePermutationPeptideScores [] [] 1 false)).length →
          (((calculatePermutationPeptideScores [] [] 1 false).zip
              (calculatePermutationPeptideScores [] [] 1 false)).getD j (0, 0)).1
            - (((calculatePermutationPeptideScores [] [] 1 false).zip
              (calculatePermutationPeptideScores [] [] 1 false)).getD j (0, 0)).2
            ≤ (((calculatePermutationPeptideScores [] [] 1 false).zip
              (calculatePermutationPeptideScores [] [] 1 false)).getD i (0, 0)).1
            - (((calculatePermutationPeptideScores [] [] 1 false).zip
              (calculatePermutationPeptideScores [] [] 1 false)).getD i (0, 0)).2)) :=
  sitePeakDepth_fullSpectrum_argmax [] [] [] 1 false _ rfl

/-- Claim C2, counterexample.  Best-assignment spectrum `[110, 120, 190]`,
counterfactual spectrum `[110, 180, 190]` (shared ions 110 and 190,
site-determining ions 120 vs 180), one window whose peaks in intensity order
sit at `[150, 160, 120, 110]`, tolerance 0.5, absolute units.  The source
selects depth 3 (from the FULL-spectrum score vectors: the shared ion at 110
is first examined at depth 3 and matches only alongside the differential
120), while the spec's differential-ion depth scores peak at depth 2.  So
the chosen depth is not the one described by the claim. -/
theorem sitePeakDepth_ne_specSitePeakDepth :
    sitePeakDepth [110, 120, 190] [110, 180, 190] [[150, 160, 120, 110]] (1/2) false = 3 ∧
    specSitePeakDepth [110, 120, 190] [110, 180, 190] [[150, 160, 120, 110]] (1/2) false = 2 ∧
    sitePeakDepth [110, 120, 190] [110, 180, 190] [[150, 160, 120, 110]] (1/2) false ≠
      specSitePeakDepth [110, 120, 190] [110, 180, 190] [[150, 160, 120, 110]] (1/2) false := by
  have hc1 : cumulativeScores [110, 120, 190] [[150, 160, 120, 110]] (1/2) false
      = [1, 58808/1000000, 2646/1000000, 4672/1000000, 7250/1000000, 10368/1000000,
         14014/1000000, 18176/1000000, 22842/1000000, 28000/1000000] := by
    norm_num [cumulativeScores, totalMatchedIons, numberOfMatchedIons,
      numberOfMatchedIonsAux, matchesIon, findNearest, findNearestAux, ratAbs,
      computeCumulativeScore, binomSumFrom, List.range, List.range.loop]
  have hc2 : cumulativeScores [110, 180, 190] [[150, 160, 120, 110]] (1/2) false
      = [1, 1, 87327/1000000, 115264/1000000, 142625/1000000, 169416/1000000,
         195643/1000000, 221312/1000000, 246429/1000000, 271000/1000000] := by
    norm_num [cumulativeScores, totalMatchedIons, numberOfMatchedIons,
      numberOfMatchedIonsAux, matchesIon, findNearest, findNearestAux, ratAbs,
      computeCumulativeScore, binomSumFrom, List.range, List.range.loop]
  have hc3 : cumulativeScores [120] [[150, 160, 120, 110]] (1/2) false
      = [1, 2/100, 3/100, 4/100, 5/100, 6/100, 7/100, 8/100, 9/100, 10/100] := by
    norm_num [cumulativeScores, totalMatchedIons, numberOfMatchedIons,
      numberOfMatchedIonsAux, matchesIon, findNearest, findNearestAux, ratAbs,
      computeCumulativeScore, binomSumFrom, List.range, List.range.loop]
  have hc4 : cumulativeScores [180] [[150, 160, 120, 110]] (1/2) false
      = [1, 1, 1, 1, 1, 1, 1, 1, 1, 1] := by
    norm_num [cumulativeScores, totalMatchedIons, numberOfMatchedIons,
      numberOfMatchedIonsAux, matchesIon, findNearest, findNearestAux, ratAbs,
      computeCumulativeScore, binomSumFrom, List.range, List.range.loop]
  have hb1 : ∀ q ∈ cumulativeScores [110, 120, 190] [[150, 160, 120, 110]] (1/2) false,
      0 < q ∧ q ≤ 1 := by
    rw [hc1]
    intro q hq
    simp only [List.mem_cons, List.not_mem_nil, or_false] at hq
    rcases hq with rfl | rfl | rfl | rfl | rfl | rfl | rfl | rfl | rfl | rfl <;> norm_num
  have hb2 : ∀ q ∈ cumulativeScores [110, 180, 190] [[150, 160, 120, 110]] (1/2) false,
      0 < q ∧ q ≤ 1 := by
    rw [hc2]
    intro q hq
    simp only [List.mem_cons, List.not_mem_nil, or_false] at hq
    rcases hq with rfl | rfl | rfl | rfl | rfl | rfl | rfl | rfl | rfl | rfl <;> norm_num
  have hb3 : ∀ q ∈ cumulativeScores [120] [[150, 160, 120, 110]] (1/2) false,
      0 < q ∧ q ≤ 1 := by
    rw [hc3]
    intro q hq
    simp only [List.mem_cons, List.not_mem_nil, or_false] at hq
    rcases hq with rfl | rfl | rfl | rfl | rfl | rfl | rfl | rfl | rfl | rfl <;> norm_num
  have hb4 : ∀ q ∈ cumulativeScores [180] [[150, 160, 120, 110]] (1/2) false,
      0 < q ∧ q ≤ 1 := by
    rw [hc4]
    intro q hq
    simp only [List.mem_cons, List.not_mem_nil, or_false] at hq
    rcases hq with rfl | rfl | rfl | rfl | rfl | rfl | rfl | rfl | rfl | rfl <;> norm_num
  have e1 : sitePeakDepth [110, 120, 190] [110, 180, 190]
      [[150, 160, 120, 110]] (1/2) false = 3 := by
    rw [sitePeakDepth, calculatePermutationPeptideScores, calculatePermutationPeptideScores,
      determinePeakDepth_eq_ratioDepth _ _ hb1 hb2, hc1, hc2]
    norm_num [ratioDepth, ratioDepthAux, List.zip_cons_cons]
  have hdiff : computeSiteDeterminingIons [110, 120, 190] [110, 180, 190]
      = ([120], [180]) := by
    rw [computeSiteDeterminingIons]
    have hg1 : getSpectrumDifference [110, 120, 190] [110, 180, 190] = [120] := by
      norm_num [getSpectrumDifference, List.filter_cons, List.contains, List.elem_eq_mem]
    have hg2 : getSpectrumDifference [110, 180, 190] [110, 120, 190] = [180] := by
      norm_num [getSpectrumDifference, List.filter_cons, List.contains, List.elem_eq_mem]
    rw [hg1, hg2, sortByPosition_singleton, sortByPosition_singleton]
  have e2 : specSitePeakDepth [110, 120, 190] [110, 180, 190]
      [[150, 160, 120, 110]] (1/2) false = 2 := by
    rw [specSitePeakDepth, hdiff]
    show determinePeakDepth
      (calculatePermutationPeptideScores [120] [[150, 160, 120, 110]] (1/2) false)
      (calculatePermutationPeptideScores [180] [[150, 160, 120, 110]] (1/2) false) = 2
    rw [calculatePermutationPeptideScores, calculatePermutationPeptideScores,
      determinePeakDepth_eq_ratioDepth _ _ hb3 hb4, hc3, hc4]
    norm_num [ratioDepth, ratioDepthAux, List.zip_cons_cons]
  refine ⟨e1, e2, ?_⟩
  rw [e1, e2]
  omega

/-- Witness for C10 at the sorted spectrum `[(150, 5), (200, 3), (250, 7)]`:
the peak at exactly 200 (the first window's upper boundary) lands in raw
window 0. -/
theorem rawWindows_spec_witness :
    (⟨200, 3⟩ : Peak) ∈ (rawWindows [⟨150, 5⟩, ⟨200, 3⟩, ⟨250, 7⟩]).getD 0 [] := by
  have h := (rawWindows_spec [⟨150, 5⟩, ⟨200, 3⟩, ⟨250, 7⟩]
    (by norm_num [List.pairwise_cons])).2
  have hlow : spectLowerBound [⟨150, 5⟩, ⟨200, 3⟩, ⟨250, 7⟩] = 100 := by
    rw [spectLowerBound]
    norm_num
  have hup : spectUpperBound [⟨150, 5⟩, ⟨200, 3⟩, ⟨250, 7⟩] = 300 := by
    rw [spectUpperBound]
    have hc : (⌈(5 : ℚ) / 2⌉ : ℤ) = 3 := by
      rw [Int.ceil_eq_iff]
      norm_num
    norm_num [List.getLastD, hc]
  have hnum : numberOfWindows [⟨150, 5⟩, ⟨200, 3⟩, ⟨250, 7⟩] = 2 := by
    rw [numberOfWindows, hlow, hup]
    have hc : (⌈((300 : ℚ) - 100) / 100⌉ : ℤ) = 2 := by
      rw [Int.ceil_eq_iff]
      norm_num
    rw [hc]
    rfl
  refine h ⟨200, 3⟩ (by norm_num) 0 ?_ ?_
  · rw [hlow]
    norm_num
  · rw [hnum]
    omega

end AScoreModel
